import Mathlib

/-!
Shallow embedding of the aRchIVAL telemetry-pipeline core: the OTLP log
mapper (`toAnyValue`, `logsToExportRequest`), the batching exporter main
loop (`OtelJsonHttpLogExporter.export`), the producer enqueue retry
(`dispatchPostHandler`), the structured-log combinators (`withProperties`,
`withDebug`), and the cancellation scope (`Context`).

Records (`Log`) are JavaScript objects, modelled as association lists in
the object's own enumeration order.  Machine numbers are modelled as `Int`
(all the arithmetic in the source stays far from overflow and no claim
touches it).  JavaScript exceptions are modelled with `Except`.
-/

namespace Archival

/-- Runtime value appearing in a log record.  Mirrors the shapes the
source discriminates on with `typeof`/`Array.isArray`:

  - `str`, `boolean`, `int`, `nonIntNum`: primitives; the source holds a
    single `number` type and branches on `Number.isInteger`, which the
    split into `int` and `nonIntNum` reflects (the payload of `nonIntNum`
    is an opaque code for a non-integer double);
  - `null`: the JSON null value (`typeof null` is the string "object" in
    JavaScript, which matters below);
  - `arr`, `obj`: JSON composites;
  - `sym`: a runtime value whose `typeof` is none of the above (for
    example a symbol), reachable only through type-unsound callers. -/
inductive JsValue where
  | str (s : String)
  | boolean (b : Bool)
  | int (n : Int)
  | nonIntNum (code : Int)
  | null
  | arr (values : List JsValue)
  | obj (fields : List (String × JsValue))
  | sym (id : Nat)

/-- A structured log record: a JavaScript object held in its enumeration
order, exactly the order `for (const key in log)` visits. -/
abbrev Log : Type := List (String × JsValue)

/-- Property read `log[key]` on a JavaScript object: the first binding of
the key, or `undefined` (`none`). -/
def lookupJs (log : Log) (key : String) : Option JsValue :=
  match log.find? (fun kv => kv.1 = key) with
  | some kv => some kv.2
  | none => none

/-- The error value produced by `newSimpleError` / `newSimpleBug`.  The
source also attaches a structured `context` payload; no claim inspects it,
so only the name, message and bug flag are carried. -/
structure SimpleError where
  name : String
  message : String
  bug : Bool
deriving DecidableEq, Repr

/-- Outcome of `toAnyValue`: either a returned `Result` (`ok` or `err`
field set) or a JavaScript exception escaping the call. -/
inductive ConvRes (α : Type) where
  | ok (v : α)
  | err (e : SimpleError)
  | thrown (message : String)

/-- The JSON form of `opentelemetry.proto.common.v1.AnyValue`: exactly
one of the discriminating fields is present. -/
inductive AnyValue where
  | stringValue (s : String)
  | boolValue (b : Bool)
  | intValue (n : Int)
  | doubleValue (code : Int)
  | arrayValue (values : List AnyValue)
  | kvlistValue (values : List (String × AnyValue))

mutual

/-- `toAnyValue` from the OTLP exporter: convert a runtime value to an
`AnyValue`, branching on `typeof`.

  - strings, booleans and numbers map to the corresponding base value
    (`Number.isInteger` picks `intValue` over `doubleValue`);
  - the "object" branch first tests `Array.isArray` and recurses;
    otherwise it enumerates `Object.keys` and recurses per field, and
    because `typeof null` is "object", a `null` value reaches
    `Object.keys(null)`, which throws a `TypeError`;
  - any other `typeof` (the `default` case) returns a bug error. -/
def toAnyValue : JsValue → ConvRes AnyValue
  | .str s => .ok (.stringValue s)
  | .boolean b => .ok (.boolValue b)
  | .int n => .ok (.intValue n)
  | .nonIntNum c => .ok (.doubleValue c)
  | .null => .thrown "Cannot convert undefined or null to object"
  | .arr values =>
    match toAnyValueList values with
    | .thrown m => .thrown m
    | .err e => .err e
    | .ok avs => .ok (.arrayValue avs)
  | .obj fields =>
    match toAnyValueFields fields with
    | .thrown m => .thrown m
    | .err e => .err e
    | .ok kvs => .ok (.kvlistValue kvs)
  | .sym _ =>
      .err { name := "SimpleBug"
             message := "unable to convert to AnyType, known type"
             bug := true }

/-- The element loop of the `Array.isArray` branch of `toAnyValue`: a
failing element produces the wrapping error returned for arrays; a thrown
exception propagates. -/
def toAnyValueList : List JsValue → ConvRes (List AnyValue)
  | [] => .ok []
  | v :: rest =>
    match toAnyValue v with
    | .thrown m => .thrown m
    | .err _ =>
        .err { name := "SimpleError"
               message := "unable to convert value in array"
               bug := false }
    | .ok av =>
      match toAnyValueList rest with
      | .thrown m => .thrown m
      | .err e => .err e
      | .ok avs => .ok (av :: avs)

/-- The `Object.keys` loop of the plain-object branch of `toAnyValue`. -/
def toAnyValueFields : List (String × JsValue) → ConvRes (List (String × AnyValue))
  | [] => .ok []
  | (k, v) :: rest =>
    match toAnyValue v with
    | .thrown m => .thrown m
    | .err _ =>
        .err { name := "SimpleError"
               message := "unable to convert value to kvlist"
               bug := false }
    | .ok av =>
      match toAnyValueFields rest with
      | .thrown m => .thrown m
      | .err e => .err e
      | .ok kvs => .ok ((k, av) :: kvs)

end

/-- The OTLP schema URL pinned by the exporter. -/
def SchemaUrl : String := "https://opentelemetry.io/schemas/1.30.0"

/-- Build-time constant `PACKAGE_NAME` imported from `../../build`.  The
build module is not under the sources; its value is irrelevant to every
claim (it only fills the instrumentation scope). -/
def PackageName : String := "@archival/signal"

/-- Build-time constant `BUILD_VERSION` imported from `../../build`; same
remark as `PackageName`. -/
def BuildVersion : String := "unknown"

/-- The JSON form of `opentelemetry.proto.logs.v1.LogRecord` as built by
the mapper.  The five pass-through fields hold whatever value sat in the
log under the corresponding key (the source copies `log[key]` without a
check; `none` is JavaScript `undefined`).  The source stores `body` as an
`AnyValue` that is always of kind `kvlistValue`; the field here holds its
`values` list directly (so `body` below is `body.kvlistValue.values` of
the wire object). -/
structure LogRecord where
  timeUnixNano : Option JsValue
  severityNumber : Option JsValue
  severityText : Option JsValue
  traceId : Option JsValue
  spanId : Option JsValue
  observedTimeUnixNano : Int
  droppedAttributesCount : Nat
  body : List (String × AnyValue)

/-- The log entry handed to the fallback sink (`localLogFn`) when an
attribute cannot be converted: severity constants, the fixed message, the
whole offending log, the offending key and value, and the conversion
error. -/
structure DroppedAttrLog where
  severityText : String
  severityNumber : Nat
  message : String
  givenLog : Log
  key : String
  value : JsValue
  error : SimpleError

/-- The reserved keys of the `switch` inside the body loop of
`logsToExportRequest`: these are extracted into the `LogRecord` skeleton
or the resource attributes and skipped by the loop. -/
def reservedLogKeys : List String :=
  ["timeUnixNano", "severityNumber", "severityText", "traceId", "spanId",
   "service.name", "service.version"]

/-- `log[LogKey.ServiceName] ?? "unknown"`.  The TypeScript type of the
field is `string`; `??` replaces a missing (or null) value with the
default, which the catch-all branch reflects. -/
def serviceNameOf (log : Log) : String :=
  match lookupJs log "service.name" with
  | some (.str s) => s
  | _ => "unknown"

/-- `log[LogKey.ServiceVersion] ?? "0.0.0-unknown"`. -/
def serviceVersionOf (log : Log) : String :=
  match lookupJs log "service.version" with
  | some (.str s) => s
  | _ => "0.0.0-unknown"

/-- The grouping key: the template literal
`serviceName + "\n" + serviceVersion`. -/
def resourceKey (log : Log) : String :=
  serviceNameOf log ++ "\n" ++ serviceVersionOf log

/-- The defaulted `(service.name, service.version)` pair of a record. -/
def serviceTuple (log : Log) : String × String :=
  (serviceNameOf log, serviceVersionOf log)

/-- The fallback-sink entry built inside the `default` branch of the body
loop for an attribute that failed to convert. -/
def mkDroppedLog (wholeLog : Log) (k : String) (v : JsValue) (e : SimpleError) :
    DroppedAttrLog :=
  { severityText := "fatal"
    severityNumber := 21
    message := "Unable to export attribute in log"
    givenLog := wholeLog
    key := k
    value := v
    error := e }

/-- The `for (const key in log)` body loop of `logsToExportRequest`,
iterating the record in its key order: reserved keys are skipped,
convertible values are pushed onto `body.kvlistValue.values`, a conversion
error drops the attribute (counting it and logging one fallback entry),
and a thrown conversion exception propagates. -/
def mapBodyEntries (wholeLog : Log) :
    List (String × JsValue) →
    Except String (List (String × AnyValue) × Nat × List DroppedAttrLog)
  | [] => .ok ([], 0, [])
  | (k, v) :: rest =>
    if k ∈ reservedLogKeys then mapBodyEntries wholeLog rest
    else
      match toAnyValue v with
      | .thrown m => .error m
      | .err e => do
          let (body, dropped, fbs) ← mapBodyEntries wholeLog rest
          .ok (body, dropped + 1, mkDroppedLog wholeLog k v e :: fbs)
      | .ok av => do
          let (body, dropped, fbs) ← mapBodyEntries wholeLog rest
          .ok ((k, av) :: body, dropped, fbs)

/-- The per-record step of `logsToExportRequest`: build the `LogRecord`
skeleton from the reserved keys, run the body loop, and return the record
together with the fallback entries it emitted. -/
def mapRecord (now : Int) (log : Log) :
    Except String (LogRecord × List DroppedAttrLog) := do
  let (body, dropped, fbs) ← mapBodyEntries log log
  .ok ({ timeUnixNano := lookupJs log "timeUnixNano"
         severityNumber := lookupJs log "severityNumber"
         severityText := lookupJs log "severityText"
         traceId := lookupJs log "traceId"
         spanId := lookupJs log "spanId"
         observedTimeUnixNano := now * 1000000
         droppedAttributesCount := dropped
         body := body }, fbs)

/-- The `requestsByResource` map: a JavaScript object whose string keys
enumerate in insertion order, modelled as an association list with new
keys appended at the end. -/
abbrev Groups : Type := List (String × List LogRecord)

/-- `requestsByResource[resourceKey].push(record)`, creating the entry
first when the key is new. -/
def insertRecord (groups : Groups) (key : String) (r : LogRecord) : Groups :=
  match groups with
  | [] => [(key, [r])]
  | (k, rs) :: rest =>
    if k = key then (k, rs ++ [r]) :: rest
    else (k, rs) :: insertRecord rest key r

/-- The grouping loop of `logsToExportRequest` over the input records, in
input order, threading the `requestsByResource` object and the trace of
fallback-sink entries. -/
def buildGroups (now : Int) (acc : Groups) (fbAcc : List DroppedAttrLog) :
    List Log → Except String (Groups × List DroppedAttrLog)
  | [] => .ok (acc, fbAcc)
  | log :: rest => do
    let (r, fbs) ← mapRecord now log
    buildGroups now (insertRecord acc (resourceKey log) r) (fbAcc ++ fbs) rest

/-- `opentelemetry.proto.common.v1.KeyValue`. -/
structure KeyValue where
  key : String
  value : AnyValue

/-- `opentelemetry.proto.common.v1.InstrumentationScope` (the optional
attribute fields are never set by the exporter). -/
structure InstrumentationScope where
  name : String
  version : String

/-- `opentelemetry.proto.logs.v1.ScopeLogs`. -/
structure ScopeLogs where
  scope : InstrumentationScope
  logRecords : List LogRecord
  schemaUrl : String

/-- `opentelemetry.proto.resource.v1.Resource`. -/
structure Resource where
  attributes : List KeyValue

/-- `opentelemetry.proto.logs.v1.ResourceLogs`. -/
structure ResourceLogs where
  resource : Resource
  scopeLogs : List ScopeLogs
  schemaUrl : String

/-- `opentelemetry.proto.collector.logs.v1.ExportLogsServiceRequest`. -/
structure ExportLogsServiceRequest where
  resourceLogs : List ResourceLogs

/-- Build one `ResourceLogs` entry from a group.  The source splits the
key with `key.split("\n", 2)`, which in JavaScript returns the first two
fields of the full split (the limit truncates, it does not keep the
remainder); a key built by `resourceKey` always contains a newline, so
both fields exist. -/
def mkResourceLog (key : String) (records : List LogRecord) : ResourceLogs :=
  let parts := key.splitOn "\n"
  { schemaUrl := SchemaUrl
    resource :=
      { attributes :=
          [ { key := "service.name", value := .stringValue (parts.getD 0 "") },
            { key := "service.version", value := .stringValue (parts.getD 1 "") } ] }
    scopeLogs :=
      [ { schemaUrl := SchemaUrl
          scope := { name := PackageName, version := BuildVersion }
          logRecords := records } ] }

/-- The assembly loop of `logsToExportRequest`: one `ResourceLogs` per
group, in the key-insertion order of `requestsByResource`, skipping a
group whose record list is empty. -/
def groupsToResourceLogs : Groups → List ResourceLogs
  | [] => []
  | (key, records) :: rest =>
    if records.isEmpty then groupsToResourceLogs rest
    else mkResourceLog key records :: groupsToResourceLogs rest

/-- `logsToExportRequest`: group the records by `resourceKey`, map each to
a `LogRecord`, and assemble the request.  `now` is the millisecond wall
clock (`Date.now()`) sampled for `observedTimeUnixNano`; the fallback-sink
entries emitted through `localLogFn` are returned as a trace, in call
order; a `TypeError` thrown by `toAnyValue` on a null value escapes the
whole call. -/
def logsToExportRequest (now : Int) (logs : List Log) :
    Except String (ExportLogsServiceRequest × List DroppedAttrLog) := do
  let (gs, fbs) ← buildGroups now [] [] logs
  .ok ({ resourceLogs := groupsToResourceLogs gs }, fbs)

/-- Configuration of `OtelJsonHttpLogExporter` (the endpoint, queue and
sink are external collaborators the loop model abstracts over). -/
structure ExporterConfig where
  batchSize : Nat
  fullBatchTimeout : Nat
  receiveTimeout : Nat
  softStop : Bool

/-- Outcome of one `queue.receive(timeoutCtx)` call, as observed by the
exporter: a record, the `ContextCancelledError` sentinel, another error,
or the malformed result (`ok` and `err` both undefined) that makes the
loop throw a bug. -/
inductive RecvOutcome where
  | ok (item : Log)
  | errCancelled
  | errOther (e : SimpleError)
  | neitherOkNorErr

/-- The environment observations one iteration of the export loop can
make: `ctx.done()` at the `while` condition, the two `Date.now()` samples
(at the flush check and after a flush), the receive outcome, and
`ctx.done()` as read inside the cancelled-error handler.  The receive
fields are consumed only on an iteration that reaches the receive. -/
structure Tick where
  ctxDoneAtTop : Bool
  now1 : Nat
  now2 : Nat
  recv : RecvOutcome
  ctxDoneAtErr : Bool

/-- State of the export loop, together with the traces needed to state
the claims: `flushes` records each `#exportBatch` call (in order),
`ctxParents` records, for each timeout context created, whether it was
given the outer context as parent, `received` is the sequence of records
obtained from the queue, and `queueSends` counts the `queue.send` calls
the exporter makes (the source makes none). -/
structure ExpState where
  batch : List Log
  lastSendUnix : Nat
  flushes : List (List Log)
  ctxParents : List Bool
  received : List Log
  queueSends : Nat

/-- How a run of the export loop ended: the tick stream ran out with the
loop still live, the `while` condition came up false, the `break` inside
the cancelled-error handler fired, or the bug exception was thrown.  The
exit constructors carry the tick being processed at exit and the
remaining stream. -/
inductive LoopOutcome where
  | running (st : ExpState)
  | exitedCond (st : ExpState) (t : Tick) (rest : List Tick)
  | exitedBreak (st : ExpState) (t : Tick) (rest : List Tick)
  | bugThrown (st : ExpState) (t : Tick) (rest : List Tick)

/-- The `while (softStop || !ctx.done())` loop of
`OtelJsonHttpLogExporter.export`, driven by a stream of observations.
Each iteration: flush when the batch is full or stale (then `continue`),
otherwise create the receive-timeout context (parent: the outer context
exactly when `softStop` is false), receive, and handle the outcome as the
source does.  `now1 - lastSendUnix` is truncated subtraction: when the
clock reads below `lastSendUnix` both the source (negative number) and
the model (zero) fail the `> fullBatchTimeout` test. -/
def exportLoop (cfg : ExporterConfig) : List Tick → ExpState → LoopOutcome
  | [], st => .running st
  | t :: ts, st =>
    if cfg.softStop || !t.ctxDoneAtTop then
      if st.batch.length ≥ cfg.batchSize ∨ t.now1 - st.lastSendUnix > cfg.fullBatchTimeout then
        exportLoop cfg ts
          { st with
            flushes := st.flushes ++ [st.batch]
            lastSendUnix := t.now2
            batch := [] }
      else
        let st1 := { st with ctxParents := st.ctxParents ++ [!cfg.softStop] }
        match t.recv with
        | .ok item =>
            exportLoop cfg ts
              { st1 with
                batch := st1.batch ++ [item]
                received := st1.received ++ [item] }
        | .errCancelled =>
            if t.ctxDoneAtErr then .exitedBreak st1 t ts
            else exportLoop cfg ts st1
        | .errOther _ => exportLoop cfg ts st1
        | .neitherOkNorErr => .bugThrown st1 t ts
    else .exitedCond st t ts

/-- Result of a whole `export(ctx)` call: normal return (after the final
flush of a nonempty batch), the bug exception escaping, or a run whose
observation stream was exhausted first. -/
inductive ExportRes where
  | ok (st : ExpState)
  | bugThrown (st : ExpState)
  | running (st : ExpState)

/-- The state carried by an `ExportRes`. -/
def ExportRes.state : ExportRes → ExpState
  | .ok st => st
  | .bugThrown st => st
  | .running st => st

/-- The state the export loop starts from: empty batch,
`lastSendUnix = Date.now()` sampled at entry (`t0`). -/
def initExpState (t0 : Nat) : ExpState :=
  { batch := []
    lastSendUnix := t0
    flushes := []
    ctxParents := []
    received := []
    queueSends := 0 }

/-- `OtelJsonHttpLogExporter.export`: run the loop, then flush the
remaining batch if it is nonempty (the batch local then goes out of
scope, which the reset to `[]` reflects).  Named `exporterExport` because
`export` is a Lean keyword. -/
def exporterExport (cfg : ExporterConfig) (t0 : Nat) (ticks : List Tick) :
    ExportRes :=
  match exportLoop cfg ticks (initExpState t0) with
  | .running st => .running st
  | .bugThrown st _ _ => .bugThrown st
  | .exitedCond st _ _ =>
      if st.batch.isEmpty then .ok st
      else .ok { st with flushes := st.flushes ++ [st.batch], batch := [] }
  | .exitedBreak st _ _ =>
      if st.batch.isEmpty then .ok st
      else .ok { st with flushes := st.flushes ++ [st.batch], batch := [] }

/-- Outcome of one `queue.send` call in the dispatch handler. -/
inductive SendRes where
  | ok
  | err (e : SimpleError)

/-- Observable outcome of `dispatchPostHandler`: the HTTP status (200, or
the status of the thrown `HTTPException`), the exception cause, the
number of `send` attempts made, and the durations of the back-off sleeps
performed between consecutive attempts. -/
structure DispatchResult where
  status : Nat
  cause : Option SimpleError
  sendAttempts : Nat
  sleepsMs : List Nat

/-- The `for (attempt = 0; attempt < 5; attempt++)` retry loop of
`dispatchPostHandler`, with `sr` giving the outcome of the send at each
attempt index.  Returns the attempts made from this point, the back-off
sleeps performed, and the terminal error if attempt 4 failed
(`remaining` is `5 - attempt`; the `remaining = 0` case is the plain
loop exit, unreachable from the handler because attempt 4 throws
first). -/
def sendRetry (sr : Nat → SendRes) : Nat → Nat → Nat × List Nat × Option SimpleError
  | _, 0 => (0, [], none)
  | attempt, r + 1 =>
    match sr attempt with
    | .ok => (1, [], none)
    | .err e =>
      if r = 0 then (1, [], some e)
      else
        let (a, sleeps, out) := sendRetry sr (attempt + 1) r
        (a + 1, 500 :: sleeps, out)

/-- `dispatchPostHandler`, abstracted over the URL inspection outcome (an
external collaborator) and the queue send outcomes: no content type
throws a 400 before any send; otherwise `queue.send` is retried, a
success responds 200 and exhaustion throws a 500 whose cause is the last
send error. -/
def dispatchPostHandler (contentType : Option String) (sr : Nat → SendRes) :
    DispatchResult :=
  match contentType with
  | none =>
      { status := 400
        cause := some { name := "SimpleError"
                        message := "unable to dispatch URL, unknown content type"
                        bug := false }
        sendAttempts := 0
        sleepsMs := [] }
  | some _ =>
    let (a, sleeps, out) := sendRetry sr 0 5
    match out with
    | none => { status := 200, cause := none, sendAttempts := a, sleepsMs := sleeps }
    | some e => { status := 500, cause := some e, sendAttempts := a, sleepsMs := sleeps }

/-- A structured log function, in trace semantics: the result is the list
of log objects delivered to the underlying sink by this call.  The
repository observes invocations of a wrapped function the same way (a
recording mock in its tests). -/
def StructuredLogFunction : Type := Log → List Log

/-- The recording sink: every invocation is delivered as-is. -/
def sinkMock : StructuredLogFunction := fun l => [l]

/-- A JavaScript property write `target[k] = v`: an existing key keeps
its position and gets the new value, a new key is appended. -/
def setKey : Log → String → JsValue → Log
  | [], k, v => [(k, v)]
  | (k', v') :: rest, k, v =>
    if k' = k then (k', v) :: rest else (k', v') :: setKey rest k v

/-- `Object.assign(target, source)`: copy every binding of `source` onto
`target`, in the enumeration order of `source`, overwriting existing
keys. -/
def objectAssign (target source : Log) : Log :=
  source.foldl (fun t kv => setKey t kv.1 kv.2) target

/-- `withProperties`: the returned log function assigns the injected
bindings onto the given log (mutating it in place in the source) and then
invokes the wrapped function on that same object. -/
def withProperties (injected : Log) (logfn : StructuredLogFunction) :
    StructuredLogFunction :=
  fun givenLog => logfn (objectAssign givenLog injected)

/-- `withDebug`: with debug enabled the wrapped function is returned
unchanged; otherwise the returned function invokes it exactly when
`givenLog[LogKey.SeverityNumber] !== LogValue.SeverityNumberDebug`
(the number 5), and otherwise returns without calling it. -/
def withDebug (debugEnabled : Bool) (logfn : StructuredLogFunction) :
    StructuredLogFunction :=
  if debugEnabled then logfn
  else fun givenLog =>
    match lookupJs givenLog "severityNumber" with
    | some (.int 5) => []
    | _ => logfn givenLog

/-- Whether the keys of an association list are pairwise distinct, which
holds of every list modelling a JavaScript object. -/
def nodupKeys : Log → Bool
  | [] => true
  | (k, _) :: rest => !(rest.any (fun kv => kv.1 == k)) && nodupKeys rest

/-- Modelled from the spec: the `Context` cancellation scope of
`@archival/core/context` (spec §4.1).  The implementation file is not
under the sources (only its tests are), so the scope is modelled from the
specification words: a node holds a monotonic cancelled flag and an
ordered collection of child scopes; `cancel()` marks the node and walks
the subtree; a child of an already-cancelled parent is born cancelled. -/
inductive Context where
  | node (cancelled : Bool) (children : List Context)

/-- Modelled from the spec: `done()`, the non-blocking poll of the
cancelled flag. -/
def Context.isDone : Context → Bool
  | .node c _ => c

mutual

/-- Modelled from the spec: `cancel()` marks this scope and every
transitive descendant cancelled. -/
def Context.cancel : Context → Context
  | .node _ children => .node true (Context.cancelList children)

/-- The subtree walk of `Context.cancel` over a child list. -/
def Context.cancelList : List Context → List Context
  | [] => []
  | c :: cs => Context.cancel c :: Context.cancelList cs

end

/-- Modelled from the spec: `new Context(parent)` registers a fresh child
with the parent; the child is born cancelled exactly when the parent is
already cancelled.  Returns the updated parent and the new child. -/
def Context.newChild : Context → Context × Context
  | .node c children => (.node c (children ++ [.node c []]), .node c [])

/-- `IsDesc d s`: `d` is a transitive descendant of the scope `s` (a
child, or a descendant of a child). -/
inductive IsDesc : Context → Context → Prop where
  | child (b : Bool) (cs : List Context) (d : Context) :
      d ∈ cs → IsDesc d (.node b cs)
  | trans (b : Bool) (cs : List Context) (c d : Context) :
      c ∈ cs → IsDesc d c → IsDesc d (.node b cs)

/-- Whether a `queue.send` outcome is an error. -/
def SendRes.isErr : SendRes → Bool
  | .ok => false
  | .err _ => true

/-- The error of a `queue.send` outcome, if any. -/
def SendRes.errOf : SendRes → Option SimpleError
  | .ok => none
  | .err e => some e

/-- The exporter state carried by a `LoopOutcome`. -/
def LoopOutcome.state : LoopOutcome → ExpState
  | .running st => st
  | .exitedCond st _ _ => st
  | .exitedBreak st _ _ => st
  | .bugThrown st _ _ => st

/-- The distinct elements of a list in first-occurrence order, skipping
those already in `seen`: the key-insertion order of a JavaScript object
populated by a scan. -/
def firstOccAux (seen : List String) : List String → List String
  | [] => []
  | k :: rest =>
    if k ∈ seen then firstOccAux seen rest
    else k :: firstOccAux (k :: seen) rest

/-- The record list of a group, read the way JavaScript property access
does: the first entry with the key, and `[]` when the key is absent. -/
def findG (gs : Groups) (key : String) : List LogRecord :=
  match gs.find? (fun p => p.1 = key) with
  | some p => p.2
  | none => []

/-- The records the mapper produces, in input order, for the logs of one
grouping key (used to state the grouping claims; the `filterMap` keeps
the successfully mapped records, and under a successful run that is all
of them). -/
def recordsForKey (now : Int) (key : String) (logs : List Log) : List LogRecord :=
  (logs.filter (fun l => decide (resourceKey l = key))).filterMap
    (fun l => match mapRecord now l with
      | .ok (r, _) => some r
      | .error _ => none)

/-- The body entries the body loop keeps for a list of record bindings:
non-reserved keys whose value converts, with the converted value, in the
record's key order. -/
def bodyEntriesOf (entries : List (String × JsValue)) : List (String × AnyValue) :=
  entries.filterMap (fun kv =>
    if kv.1 ∈ reservedLogKeys then none
    else
      match toAnyValue kv.2 with
      | .ok av => some (kv.1, av)
      | _ => none)

/-! Theorems.  One main theorem per claim, with shared helper lemmas. -/

theorem lookupJs_cons (a : String) (b : JsValue) (rest : Log) (key : String) :
    lookupJs ((a, b) :: rest) key = if a = key then some b else lookupJs rest key := by
  by_cases h : a = key
  · simp [lookupJs, List.find?_cons, h]
  · simp [lookupJs, List.find?_cons, h]

/-- Claim C8: with `LOG_DEBUG` false the producer sink drops debug
records: the function returned by `withDebug false logfn` invokes `logfn`
on a log exactly when the severity number of the log is not the debug
value 5 (shown against the recording sink for the dropped side), and
`withDebug true logfn` is `logfn` unchanged. -/
theorem c8_withDebug_filters_debug (f : StructuredLogFunction) (g : Log) :
    withDebug true f = f
    ∧ (lookupJs g "severityNumber" ≠ some (JsValue.int 5) →
        withDebug false f g = f g)
    ∧ (lookupJs g "severityNumber" = some (JsValue.int 5) →
        withDebug false sinkMock g = []) := by
  refine ⟨rfl, fun h => ?_, fun h => ?_⟩
  · simp only [withDebug, Bool.false_eq_true, if_false]
  · simp only [withDebug, Bool.false_eq_true, if_false]
    rw [h]
    rfl

/-- Witness for C8 at concrete logs: a debug log is dropped, a log
without a severity number passes through. -/
theorem c8_witness :
    withDebug false sinkMock [("severityNumber", JsValue.int 5)] = []
    ∧ withDebug false sinkMock [("a", JsValue.str "b")] = [[("a", JsValue.str "b")]] := by
  constructor
  · exact (c8_withDebug_filters_debug sinkMock _).2.2 rfl
  · have h := (c8_withDebug_filters_debug sinkMock [("a", JsValue.str "b")]).2.1
    exact h (by intro hc; exact Option.noConfusion hc)

theorem lookupJs_setKey (t : Log) (k key : String) (v : JsValue) :
    lookupJs (setKey t k v) key = if k = key then some v else lookupJs t key := by
  induction t with
  | nil =>
    show lookupJs [(k, v)] key = _
    rw [lookupJs_cons]
  | cons hd rest ih =>
    obtain ⟨a, b⟩ := hd
    by_cases hak : a = k
    · subst hak
      by_cases h : a = key
      · subst h
        simp [setKey, lookupJs_cons]
      · simp [setKey, lookupJs_cons, h]
    · by_cases h : a = key
      · subst h
        simp [setKey, lookupJs_cons, hak, Ne.symm hak]
      · simp [setKey, lookupJs_cons, hak, h, ih]

theorem lookupJs_objectAssign_not_mem (t s : Log) (key : String)
    (h : s.any (fun kv => kv.1 == key) = false) :
    lookupJs (objectAssign t s) key = lookupJs t key := by
  induction s generalizing t with
  | nil => rfl
  | cons hd rest ih =>
    obtain ⟨a, b⟩ := hd
    simp only [List.any_cons] at h
    have h1 : (a == key) = false := by
      cases hab : (a == key) with
      | false => rfl
      | true => rw [hab] at h; simp at h
    have h2 : rest.any (fun kv => kv.1 == key) = false := by
      cases hr : rest.any (fun kv => kv.1 == key) with
      | false => rfl
      | true => rw [hr] at h; simp at h
    have hne : ¬ a = key := by simpa using h1
    show lookupJs (objectAssign (setKey t a b) rest) key = lookupJs t key
    rw [ih (setKey t a b) h2, lookupJs_setKey, if_neg hne]

theorem lookupJs_objectAssign_inj (t s : Log) (key : String) (v : JsValue)
    (hnd : nodupKeys s = true) (h : lookupJs s key = some v) :
    lookupJs (objectAssign t s) key = some v := by
  induction s generalizing t with
  | nil => exact absurd h (by simp [lookupJs, List.find?])
  | cons hd rest ih =>
    obtain ⟨a, b⟩ := hd
    simp only [nodupKeys, Bool.and_eq_true] at hnd
    obtain ⟨hna, hnr⟩ := hnd
    have hany : rest.any (fun kv => kv.1 == a) = false := by
      cases hx : rest.any (fun kv => kv.1 == a) with
      | false => rfl
      | true => rw [hx] at hna; simp at hna
    rw [lookupJs_cons] at h
    show lookupJs (objectAssign (setKey t a b) rest) key = some v
    by_cases hak : a = key
    · subst hak
      rw [if_pos rfl] at h
      rw [lookupJs_objectAssign_not_mem (setKey t a b) rest a hany, lookupJs_setKey,
        if_pos rfl]
      exact h
    · rw [if_neg hak] at h
      exact ih (setKey t a b) hnr h

/-- Claim C10: the function returned by `withProperties` invokes the
wrapped log function on the given log with the injected bindings assigned
onto it (`Object.assign(givenLog, injected)`), and an injected binding
overwrites any same-named key already present in the callers log, so a
per-call property can never override an injected one. -/
theorem c10_withProperties_injected_wins (injected given : Log)
    (f : StructuredLogFunction) :
    withProperties injected f given = f (objectAssign given injected)
    ∧ (nodupKeys injected = true →
        ∀ k v, lookupJs injected k = some v →
          lookupJs (objectAssign given injected) k = some v) :=
  ⟨rfl, fun hnd _ _ h => lookupJs_objectAssign_inj _ _ _ _ hnd h⟩

/-- Witness for C10: the injected value of key `a` wins over the
callers value. -/
theorem c10_witness :
    lookupJs
      (objectAssign [("a", JsValue.str "caller"), ("c", JsValue.str "d")]
        [("a", JsValue.str "injected")]) "a" = some (JsValue.str "injected") :=
  (c10_withProperties_injected_wins [("a", JsValue.str "injected")]
      [("a", JsValue.str "caller"), ("c", JsValue.str "d")] sinkMock).2
    rfl "a" (JsValue.str "injected") rfl

theorem sendRetry_attempts_le (sr : Nat → SendRes) :
    ∀ r a, (sendRetry sr a r).1 ≤ r := by
  intro r
  induction r with
  | zero => intro a; simp [sendRetry]
  | succ n ih =>
    intro a
    cases hsa : sr a with
    | ok => simp [sendRetry, hsa]
    | err e =>
      by_cases hn : n = 0
      · subst hn; simp [sendRetry, hsa]
      · have h := ih (a + 1)
        simp only [sendRetry, hsa, if_neg hn]
        exact Nat.succ_le_succ h

theorem sendRetry_all_fail (sr : Nat → SendRes) :
    ∀ r a, 1 ≤ r → (∀ i, a ≤ i → i < a + r → (sr i).isErr = true) →
      sendRetry sr a r = (r, List.replicate (r - 1) 500, (sr (a + r - 1)).errOf) := by
  intro r
  induction r with
  | zero => intro a h; exact absurd h (by omega)
  | succ n ih =>
    intro a _ hfail
    have ha : (sr a).isErr = true := hfail a (le_refl a) (by omega)
    cases hsa : sr a with
    | ok => rw [hsa] at ha; simp [SendRes.isErr] at ha
    | err e =>
      simp only [sendRetry, hsa]
      by_cases hn : n = 0
      · subst hn
        simp [SendRes.errOf, hsa]
      · rw [if_neg hn]
        have hrec := ih (a + 1) (by omega) (fun i h1 h2 => hfail i (by omega) (by omega))
        rw [hrec]
        have h1 : a + 1 + n - 1 = a + (n + 1) - 1 := by omega
        have h2 : 500 :: List.replicate (n - 1) 500 = List.replicate n 500 := by
          cases n with
          | zero => exact absurd rfl hn
          | succ m => simp [List.replicate_succ]
        rw [h1, h2]
        simp

theorem sendRetry_first_ok (sr : Nat → SendRes) :
    ∀ k r a, k < r → (∀ i, a ≤ i → i < a + k → (sr i).isErr = true) →
      sr (a + k) = SendRes.ok →
      sendRetry sr a r = (k + 1, List.replicate k 500, none) := by
  intro k
  induction k with
  | zero =>
    intro r a hk _ hok
    cases r with
    | zero => omega
    | succ n =>
      rw [show a + 0 = a from rfl] at hok
      simp only [sendRetry, hok]
      simp
  | succ m ih =>
    intro r a hk hfail hok
    cases r with
    | zero => omega
    | succ n =>
      have ha : (sr a).isErr = true := hfail a (le_refl a) (by omega)
      cases hsa : sr a with
      | ok => rw [hsa] at ha; simp [SendRes.isErr] at ha
      | err e =>
        simp only [sendRetry, hsa]
        have hn : n ≠ 0 := by omega
        rw [if_neg hn]
        have hrec := ih n (a + 1) (by omega)
          (fun i h1 h2 => hfail i (by omega) (by omega))
          (by rw [show a + 1 + m = a + (m + 1) by omega]; exact hok)
        rw [hrec]
        simp [List.replicate_succ]

/-- Claim C7: for a dispatch request whose URL classifies to a content
type, the handler attempts `queue.send` at most 5 times with a fixed
500 ms back-off between consecutive attempts; if all 5 attempts fail it
raises an HTTP 500 whose cause is the queue error of the last attempt,
and a successful attempt stops the retrying immediately with a 200
response. -/
theorem c7_dispatch_retry (ct : String) (sr : Nat → SendRes) :
    (dispatchPostHandler (some ct) sr).sendAttempts ≤ 5
    ∧ ((∀ i, i < 5 → (sr i).isErr = true) →
        ∃ e, sr 4 = SendRes.err e ∧
          dispatchPostHandler (some ct) sr =
            { status := 500, cause := some e, sendAttempts := 5,
              sleepsMs := [500, 500, 500, 500] })
    ∧ (∀ k, k < 5 → (∀ i, i < k → (sr i).isErr = true) → sr k = SendRes.ok →
        dispatchPostHandler (some ct) sr =
          { status := 200, cause := none, sendAttempts := k + 1,
            sleepsMs := List.replicate k 500 }) := by
  refine ⟨?_, ?_, ?_⟩
  · simp only [dispatchPostHandler]
    have h := sendRetry_attempts_le sr 5 0
    rcases hsr : sendRetry sr 0 5 with ⟨a, s, o⟩
    rw [hsr] at h
    cases o <;> simpa using h
  · intro hfail
    have h4 : (sr 4).isErr = true := hfail 4 (by omega)
    cases hs4 : sr 4 with
    | ok => rw [hs4] at h4; simp [SendRes.isErr] at h4
    | err e =>
      refine ⟨e, rfl, ?_⟩
      have h5 : sendRetry sr 0 5 = (5, List.replicate 4 500, (sr 4).errOf) := by
        have h := sendRetry_all_fail sr 5 0 (by omega) (fun i h1 h2 => hfail i (by omega))
        simpa using h
      simp [dispatchPostHandler, h5, hs4, SendRes.errOf, List.replicate_succ]
  · intro k hk hfail hok
    have h := sendRetry_first_ok sr k 5 0 hk (fun i h1 h2 => hfail i (by omega))
      (by simpa using hok)
    simp [dispatchPostHandler, h]

/-- Witness for C7: a queue whose send always fails yields 5 attempts,
four 500 ms sleeps and a 500 status carrying the queue error; a queue
whose send succeeds at once yields one attempt and a 200 status. -/
theorem c7_witness :
    dispatchPostHandler (some "text/html")
        (fun _ => SendRes.err ⟨"QueueUnavailable", "disk error", false⟩) =
      { status := 500, cause := some ⟨"QueueUnavailable", "disk error", false⟩,
        sendAttempts := 5, sleepsMs := [500, 500, 500, 500] }
    ∧ dispatchPostHandler (some "text/html") (fun _ => SendRes.ok) =
      { status := 200, cause := none, sendAttempts := 1, sleepsMs := [] } := by
  constructor
  · obtain ⟨e, he, hres⟩ :=
      (c7_dispatch_retry "text/html"
        (fun _ => SendRes.err ⟨"QueueUnavailable", "disk error", false⟩)).2.1
        (fun i _ => rfl)
    cases he
    exact hres
  · exact (c7_dispatch_retry "text/html" (fun _ => SendRes.ok)).2.2 0 (by omega)
      (fun i h => absurd h (by omega)) rfl

/-- Claim C2 (code bug at null): `toAnyValue` on a null value takes the
"object" branch (JavaScript `typeof null` is "object") and throws the
`TypeError` of `Object.keys(null)` instead of reporting a dropped
attribute, so mapping a batch holding a record with a null value throws
instead of completing; a value of a kind with no `AnyValue` mapping whose
`typeof` is not "object" (here a symbol) is handled as the claim states:
the attribute is dropped and counted, one fallback entry carries the
offending key and value, and the key is omitted from the body. -/
theorem c2_null_value_throws :
    toAnyValue JsValue.null = ConvRes.thrown "Cannot convert undefined or null to object"
    ∧ logsToExportRequest 0 [[("a", JsValue.null)]] =
        Except.error "Cannot convert undefined or null to object"
    ∧ mapRecord 0 [("a", JsValue.sym 0), ("message", JsValue.str "hi")] =
        Except.ok
          ({ timeUnixNano := none, severityNumber := none, severityText := none,
             traceId := none, spanId := none, observedTimeUnixNano := 0,
             droppedAttributesCount := 1,
             body := [("message", AnyValue.stringValue "hi")] },
           [{ severityText := "fatal", severityNumber := 21,
              message := "Unable to export attribute in log",
              givenLog := [("a", JsValue.sym 0), ("message", JsValue.str "hi")],
              key := "a", value := JsValue.sym 0,
              error := { name := "SimpleBug",
                         message := "unable to convert to AnyType, known type",
                         bug := true } }]) :=
  ⟨rfl, rfl, rfl⟩

/-- Claim C1 (counterexample): two records with distinct defaulted
`(service.name, service.version)` tuples whose newline-joined keys
coincide land in the same (single) `resourceLogs` group. -/
theorem c1_counterexample :
    serviceTuple [("service.name", JsValue.str "a\nb"), ("service.version", JsValue.str "c")]
      ≠ serviceTuple [("service.name", JsValue.str "a"), ("service.version", JsValue.str "b\nc")]
    ∧ resourceKey [("service.name", JsValue.str "a\nb"), ("service.version", JsValue.str "c")]
      = resourceKey [("service.name", JsValue.str "a"), ("service.version", JsValue.str "b\nc")]
    ∧ (logsToExportRequest 0
        [[("service.name", JsValue.str "a\nb"), ("service.version", JsValue.str "c")],
         [("service.name", JsValue.str "a"), ("service.version", JsValue.str "b\nc")]]).map
        (fun p => p.1.resourceLogs.map (fun rl => rl.scopeLogs.map (fun sl => sl.logRecords.length)))
      = Except.ok [[2]] :=
  ⟨by decide, rfl, rfl⟩

theorem append_cons_eq_append_cons {α : Type} (x : α) :
    ∀ (a c b d : List α), x ∉ a → x ∉ c → a ++ x :: b = c ++ x :: d →
      a = c ∧ b = d := by
  intro a
  induction a with
  | nil =>
    intro c b d _ hc h
    cases c with
    | nil => simpa using h
    | cons y c' =>
      simp only [List.nil_append, List.cons_append, List.cons.injEq] at h
      exact absurd (by rw [h.1]; exact List.mem_cons_self y c') hc
  | cons y a' ih =>
    intro c b d ha hc h
    cases c with
    | nil =>
      simp only [List.cons_append, List.nil_append, List.cons.injEq] at h
      exact absurd (by rw [← h.1]; exact List.mem_cons_self y a') ha
    | cons z c' =>
      simp only [List.cons_append, List.cons.injEq] at h
      obtain ⟨hyz, h2⟩ := h
      have hr := ih c' b d (fun hm => ha (List.mem_cons_of_mem _ hm))
        (fun hm => hc (List.mem_cons_of_mem _ hm)) h2
      exact ⟨by rw [hyz, hr.1], hr.2⟩

/-- Claim C1 (amended): the newline-joined grouping key identifies the
defaulted `(service.name, service.version)` tuple — so two records share
a group exactly when their tuples are equal — provided the defaulted
service names contain no newline character; a service name holding a
newline can collide with a distinct tuple (see the counterexample). -/
theorem c1_amended_key_injective (l1 l2 : Log)
    (h1 : ¬ Char.ofNat 10 ∈ (serviceNameOf l1).data)
    (h2 : ¬ Char.ofNat 10 ∈ (serviceNameOf l2).data) :
    resourceKey l1 = resourceKey l2 ↔ serviceTuple l1 = serviceTuple l2 := by
  constructor
  · intro h
    have hd : (serviceNameOf l1).data ++ Char.ofNat 10 :: (serviceVersionOf l1).data
        = (serviceNameOf l2).data ++ Char.ofNat 10 :: (serviceVersionOf l2).data := by
      have hc := congrArg String.data h
      simp only [resourceKey, String.data_append] at hc
      simpa using hc
    obtain ⟨hn, hv⟩ := append_cons_eq_append_cons (Char.ofNat 10) _ _ _ _ h1 h2 hd
    show (serviceNameOf l1, serviceVersionOf l1) = (serviceNameOf l2, serviceVersionOf l2)
    rw [String.ext hn, String.ext hv]
  · intro h
    have hn : serviceNameOf l1 = serviceNameOf l2 := congrArg Prod.fst h
    have hv : serviceVersionOf l1 = serviceVersionOf l2 := congrArg Prod.snd h
    show serviceNameOf l1 ++ "\n" ++ serviceVersionOf l1 = _
    rw [hn, hv]
    rfl

/-- Witness for the amended C1 at concrete records with newline-free
service names: equal keys coincide with equal tuples. -/
theorem c1_amended_witness :
    (resourceKey [("service.name", JsValue.str "a")]
        = resourceKey [("service.name", JsValue.str "a"),
                       ("service.version", JsValue.str "0.0.0-unknown")]
      ↔ serviceTuple [("service.name", JsValue.str "a")]
        = serviceTuple [("service.name", JsValue.str "a"),
                        ("service.version", JsValue.str "0.0.0-unknown")]) :=
  c1_amended_key_injective _ _ (by decide) (by decide)

theorem Context.cancel_isDone (c : Context) : (Context.cancel c).isDone = true := by
  cases c
  rfl

theorem mem_cancelList {d : Context} :
    ∀ {cs : List Context}, d ∈ Context.cancelList cs → ∃ c ∈ cs, d = Context.cancel c := by
  intro cs
  induction cs with
  | nil => intro h; exact absurd h (by simp [Context.cancelList])
  | cons c rest ih =>
    intro h
    rw [Context.cancelList] at h
    rcases List.mem_cons.mp h with h | h
    · exact ⟨c, List.mem_cons_self c rest, h⟩
    · obtain ⟨c', hc', hd⟩ := ih h
      exact ⟨c', List.mem_cons_of_mem c hc', hd⟩

theorem isDone_of_desc_of_cancel {d t : Context} (h : IsDesc d t) :
    ∀ s : Context, t = Context.cancel s → d.isDone = true := by
  induction h with
  | child b cs d hmem =>
    intro s heq
    cases s with
    | node b' cs' =>
      rw [Context.cancel] at heq
      cases heq
      obtain ⟨c, _, hd⟩ := mem_cancelList hmem
      rw [hd]
      exact Context.cancel_isDone c
  | trans b cs c d hmem hdesc ih =>
    intro s heq
    cases s with
    | node b' cs' =>
      rw [Context.cancel] at heq
      cases heq
      obtain ⟨c0, _, hc0⟩ := mem_cancelList hmem
      exact ih c0 hc0

/-- Claim C9 (modelled from the spec, the `Context` implementation is not
under the sources): after `S.cancel()` returns, every transitive
descendant of the cancelled scope polls `done() = true`, and a child
created on the already-cancelled scope afterwards is born cancelled. -/
theorem c9_cancel_propagates (s d : Context) (h : IsDesc d (Context.cancel s)) :
    d.isDone = true ∧ ((Context.cancel s).newChild).2.isDone = true := by
  refine ⟨isDone_of_desc_of_cancel h s rfl, ?_⟩
  cases s
  rfl

/-- Witness for C9 on a concrete two-level tree: the grandchild of a
cancelled scope is done, and so is a child created after the cancel. -/
theorem c9_witness :
    (Context.node true []).isDone = true
    ∧ ((Context.cancel (Context.node false [Context.node false [Context.node false []]])).newChild).2.isDone = true :=
  c9_cancel_propagates (Context.node false [Context.node false [Context.node false []]])
    (Context.node true [])
    (IsDesc.trans true [Context.node true [Context.node true []]]
      (Context.node true [Context.node true []]) (Context.node true [])
      (by simp)
      (IsDesc.child true [Context.node true []] (Context.node true []) (by simp)))

theorem exportLoop_break_tick (cfg : ExporterConfig) :
    ∀ (ticks : List Tick) (st st2 : ExpState) (t : Tick) (rest : List Tick),
      exportLoop cfg ticks st = LoopOutcome.exitedBreak st2 t rest →
      t.recv = RecvOutcome.errCancelled ∧ t.ctxDoneAtErr = true := by
  intro ticks
  induction ticks with
  | nil =>
    intro st st2 t rest h
    exact absurd h (by simp [exportLoop])
  | cons t0 ts ih =>
    intro st st2 t rest h
    rw [exportLoop] at h
    by_cases hc : (cfg.softStop || !t0.ctxDoneAtTop) = true
    · rw [if_pos hc] at h
      by_cases hf : st.batch.length ≥ cfg.batchSize ∨
          t0.now1 - st.lastSendUnix > cfg.fullBatchTimeout
      · rw [if_pos hf] at h
        exact ih _ _ _ _ h
      · rw [if_neg hf] at h
        cases hr : t0.recv with
        | ok item =>
          simp only [hr] at h
          exact ih _ _ _ _ h
        | errCancelled =>
          simp only [hr] at h
          by_cases hd : t0.ctxDoneAtErr = true
          · rw [if_pos hd] at h
            cases h
            exact ⟨hr, hd⟩
          · rw [if_neg hd] at h
            exact ih _ _ _ _ h
        | errOther e =>
          simp only [hr] at h
          exact ih _ _ _ _ h
        | neitherOkNorErr =>
          simp only [hr] at h
          exact absurd h (by simp)
    · rw [if_neg hc] at h
      exact absurd h (by simp)

theorem exportLoop_softStop_no_condExit (cfg : ExporterConfig)
    (hss : cfg.softStop = true) :
    ∀ (ticks : List Tick) (st st2 : ExpState) (t : Tick) (rest : List Tick),
      exportLoop cfg ticks st ≠ LoopOutcome.exitedCond st2 t rest := by
  intro ticks
  induction ticks with
  | nil =>
    intro st st2 t rest h
    exact absurd h (by simp [exportLoop])
  | cons t0 ts ih =>
    intro st st2 t rest h
    rw [exportLoop] at h
    have hc : (cfg.softStop || !t0.ctxDoneAtTop) = true := by rw [hss]; rfl
    rw [if_pos hc] at h
    by_cases hf : st.batch.length ≥ cfg.batchSize ∨
        t0.now1 - st.lastSendUnix > cfg.fullBatchTimeout
    · rw [if_pos hf] at h
      exact ih _ _ _ _ h
    · rw [if_neg hf] at h
      cases hr : t0.recv with
      | ok item =>
        simp only [hr] at h
        exact ih _ _ _ _ h
      | errCancelled =>
        simp only [hr] at h
        by_cases hd : t0.ctxDoneAtErr = true
        · rw [if_pos hd] at h
          exact absurd h (by simp)
        · rw [if_neg hd] at h
          exact ih _ _ _ _ h
      | errOther e =>
        simp only [hr] at h
        exact ih _ _ _ _ h
      | neitherOkNorErr =>
        simp only [hr] at h
        exact absurd h (by simp)

theorem exportLoop_parents (cfg : ExporterConfig) :
    ∀ (ticks : List Tick) (st : ExpState),
      ∃ l, (exportLoop cfg ticks st).state.ctxParents = st.ctxParents ++ l
        ∧ ∀ x ∈ l, x = !cfg.softStop := by
  intro ticks
  induction ticks with
  | nil =>
    intro st
    exact ⟨[], by simp [exportLoop, LoopOutcome.state], by simp⟩
  | cons t0 ts ih =>
    intro st
    rw [exportLoop]
    by_cases hc : (cfg.softStop || !t0.ctxDoneAtTop) = true
    · rw [if_pos hc]
      by_cases hf : st.batch.length ≥ cfg.batchSize ∨
          t0.now1 - st.lastSendUnix > cfg.fullBatchTimeout
      · rw [if_pos hf]
        exact ih _
      · rw [if_neg hf]
        cases hr : t0.recv with
        | ok item =>
          simp only
          obtain ⟨l, hl, hall⟩ := ih
            { st with
              ctxParents := st.ctxParents ++ [!cfg.softStop]
              batch := st.batch ++ [item]
              received := st.received ++ [item] }
          refine ⟨(!cfg.softStop) :: l, ?_, ?_⟩
          · rw [hl]; simp
          · intro x hx
            rcases List.mem_cons.mp hx with hx | hx
            · exact hx
            · exact hall x hx
        | errCancelled =>
          simp only
          by_cases hd : t0.ctxDoneAtErr = true
          · rw [if_pos hd]
            refine ⟨[!cfg.softStop], by simp [LoopOutcome.state], by simp⟩
          · rw [if_neg hd]
            obtain ⟨l, hl, hall⟩ := ih
              { st with ctxParents := st.ctxParents ++ [!cfg.softStop] }
            refine ⟨(!cfg.softStop) :: l, ?_, ?_⟩
            · rw [hl]; simp
            · intro x hx
              rcases List.mem_cons.mp hx with hx | hx
              · exact hx
              · exact hall x hx
        | errOther e =>
          simp only
          obtain ⟨l, hl, hall⟩ := ih
            { st with ctxParents := st.ctxParents ++ [!cfg.softStop] }
          refine ⟨(!cfg.softStop) :: l, ?_, ?_⟩
          · rw [hl]; simp
          · intro x hx
            rcases List.mem_cons.mp hx with hx | hx
            · exact hx
            · exact hall x hx
        | neitherOkNorErr =>
          simp only
          refine ⟨[!cfg.softStop], by simp [LoopOutcome.state], by simp⟩
    · rw [if_neg hc]
      exact ⟨[], by simp [LoopOutcome.state], by simp⟩

theorem exporterExport_state_fields (cfg : ExporterConfig) (t0 : Nat)
    (ticks : List Tick) :
    (exporterExport cfg t0 ticks).state.ctxParents
        = (exportLoop cfg ticks (initExpState t0)).state.ctxParents
    ∧ (exporterExport cfg t0 ticks).state.queueSends
        = (exportLoop cfg ticks (initExpState t0)).state.queueSends := by
  rcases h : exportLoop cfg ticks (initExpState t0) with st | ⟨st, t, r⟩ | ⟨st, t, r⟩ | ⟨st, t, r⟩
  · simp [exporterExport, h, LoopOutcome.state, ExportRes.state]
  · by_cases hb : st.batch.isEmpty
    · simp [exporterExport, h, hb, LoopOutcome.state, ExportRes.state]
    · simp [exporterExport, h, hb, LoopOutcome.state, ExportRes.state]
  · by_cases hb : st.batch.isEmpty
    · simp [exporterExport, h, hb, LoopOutcome.state, ExportRes.state]
    · simp [exporterExport, h, hb, LoopOutcome.state, ExportRes.state]
  · simp [exporterExport, h, LoopOutcome.state, ExportRes.state]

theorem exportLoop_top_exit (cfg : ExporterConfig) (hss : cfg.softStop = false)
    (t : Tick) (ts : List Tick) (st : ExpState) (hd : t.ctxDoneAtTop = true) :
    exportLoop cfg (t :: ts) st = LoopOutcome.exitedCond st t ts := by
  rw [exportLoop]
  have hc : (cfg.softStop || !t.ctxDoneAtTop) = false := by rw [hss, hd]; rfl
  rw [if_neg (by rw [hc]; simp)]

/-- Claim C3: in the export loop, the receive-timeout context is created
with no parent exactly when `softStop` is true (the `ctxParents` trace
holds `false` entries only), with `softStop` true the loop never exits
through the `while` condition and any exit is the `break` on an iteration
whose receive returned the `ContextCancelledError` sentinel with the
outer scope observed done, and with `softStop` false the loop exits as
soon as the `while` condition observes the outer scope done (and likewise
breaks on a cancelled receive with the outer scope done). -/
theorem c3_soft_stop_termination (cfg : ExporterConfig) (t0 : Nat)
    (ticks : List Tick) :
    (∀ st st2 t rest, exportLoop cfg ticks st = LoopOutcome.exitedBreak st2 t rest →
        t.recv = RecvOutcome.errCancelled ∧ t.ctxDoneAtErr = true)
    ∧ (cfg.softStop = true →
        (∀ b ∈ (exporterExport cfg t0 ticks).state.ctxParents, b = false)
        ∧ (∀ st st2 t rest,
            exportLoop cfg ticks st ≠ LoopOutcome.exitedCond st2 t rest))
    ∧ (cfg.softStop = false →
        ∀ st t ts, t.ctxDoneAtTop = true →
          exportLoop cfg (t :: ts) st = LoopOutcome.exitedCond st t ts) := by
  refine ⟨fun st st2 t rest h => exportLoop_break_tick cfg ticks st st2 t rest h,
    fun hss => ⟨?_, fun st st2 t rest => exportLoop_softStop_no_condExit cfg hss ticks st st2 t rest⟩,
    fun hss st t ts hd => exportLoop_top_exit cfg hss t ts st hd⟩
  intro b hb
  rw [(exporterExport_state_fields cfg t0 ticks).1] at hb
  obtain ⟨l, hl, hall⟩ := exportLoop_parents cfg ticks (initExpState t0)
  rw [hl] at hb
  rcases List.mem_append.mp hb with hb | hb
  · exact absurd hb (by simp [initExpState])
  · rw [hall b hb, hss]
    rfl

/-- Witness for C3: a soft-stop run whose single tick observes a
cancelled receive with the outer scope done leaves a parentless timeout
context trace, and a hard-stop run exits at the top as soon as the outer
scope is observed done. -/
theorem c3_witness :
    (∀ b ∈ (exporterExport ⟨1, 1000, 1500, true⟩ 0
        [Tick.mk true 5 5 RecvOutcome.errCancelled true]).state.ctxParents, b = false)
    ∧ exportLoop ⟨1, 1000, 1500, false⟩
        [Tick.mk true 5 5 RecvOutcome.errCancelled true] (initExpState 0)
      = LoopOutcome.exitedCond (initExpState 0)
          (Tick.mk true 5 5 RecvOutcome.errCancelled true) [] := by
  constructor
  · exact ((c3_soft_stop_termination ⟨1, 1000, 1500, true⟩ 0
      [Tick.mk true 5 5 RecvOutcome.errCancelled true]).2.1 rfl).1
  · exact (c3_soft_stop_termination ⟨1, 1000, 1500, false⟩ 0 []).2.2 rfl
      (initExpState 0) (Tick.mk true 5 5 RecvOutcome.errCancelled true) [] rfl

theorem exportLoop_sends (cfg : ExporterConfig) :
    ∀ (ticks : List Tick) (st : ExpState),
      (exportLoop cfg ticks st).state.queueSends = st.queueSends := by
  intro ticks
  induction ticks with
  | nil => intro st; simp [exportLoop, LoopOutcome.state]
  | cons t0 ts ih =>
    intro st
    rw [exportLoop]
    by_cases hc : (cfg.softStop || !t0.ctxDoneAtTop) = true
    · rw [if_pos hc]
      by_cases hf : st.batch.length ≥ cfg.batchSize ∨
          t0.now1 - st.lastSendUnix > cfg.fullBatchTimeout
      · rw [if_pos hf]
        exact ih _
      · rw [if_neg hf]
        cases hr : t0.recv with
        | ok item => simp only; exact ih _
        | errCancelled =>
          simp only
          by_cases hd : t0.ctxDoneAtErr = true
          · rw [if_pos hd]; simp [LoopOutcome.state]
          · rw [if_neg hd]; exact ih _
        | errOther e => simp only; exact ih _
        | neitherOkNorErr => simp only [LoopOutcome.state]
    · rw [if_neg hc]
      simp [LoopOutcome.state]

theorem exportLoop_flush_inv (cfg : ExporterConfig) :
    ∀ (ticks : List Tick) (st : ExpState),
      st.flushes.flatten ++ st.batch = st.received →
      (exportLoop cfg ticks st).state.flushes.flatten
          ++ (exportLoop cfg ticks st).state.batch
        = (exportLoop cfg ticks st).state.received := by
  intro ticks
  induction ticks with
  | nil => intro st h; simpa [exportLoop, LoopOutcome.state] using h
  | cons t0 ts ih =>
    intro st h
    rw [exportLoop]
    by_cases hc : (cfg.softStop || !t0.ctxDoneAtTop) = true
    · rw [if_pos hc]
      by_cases hf : st.batch.length ≥ cfg.batchSize ∨
          t0.now1 - st.lastSendUnix > cfg.fullBatchTimeout
      · rw [if_pos hf]
        refine ih _ ?_
        simpa [List.flatten_append] using h
      · rw [if_neg hf]
        cases hr : t0.recv with
        | ok item =>
          simp only
          refine ih _ ?_
          simp only
          rw [← List.append_assoc, h]
        | errCancelled =>
          simp only
          by_cases hd : t0.ctxDoneAtErr = true
          · rw [if_pos hd]; simpa [LoopOutcome.state] using h
          · rw [if_neg hd]; exact ih _ h
        | errOther e => simp only; exact ih _ h
        | neitherOkNorErr => simpa only [LoopOutcome.state] using h
    · rw [if_neg hc]
      simpa [LoopOutcome.state] using h

/-- Claim C6: the exporter destroys a batch at its single flush
regardless of the HTTP outcome: it never calls `queue.send` (the
`queueSends` count stays zero across a whole `export` run), the flushed
batches concatenated with the still-open batch are exactly the records
received, in order (so each received record reaches at most one flush
and no record of a failed flush reappears in a later request), and a run
that returns has flushed everything with its batch emptied. -/
theorem c6_flush_drops_records (cfg : ExporterConfig) (t0 : Nat)
    (ticks : List Tick) :
    (exporterExport cfg t0 ticks).state.queueSends = 0
    ∧ (exporterExport cfg t0 ticks).state.flushes.flatten
        ++ (exporterExport cfg t0 ticks).state.batch
      = (exporterExport cfg t0 ticks).state.received
    ∧ (∀ st, exporterExport cfg t0 ticks = ExportRes.ok st → st.batch = []) := by
  have hsends := exportLoop_sends cfg ticks (initExpState t0)
  have hinv := exportLoop_flush_inv cfg ticks (initExpState t0) (by simp [initExpState])
  rcases h : exportLoop cfg ticks (initExpState t0) with st | ⟨st, t, r⟩ | ⟨st, t, r⟩ | ⟨st, t, r⟩ <;>
    rw [h] at hsends hinv
  · have he : exporterExport cfg t0 ticks = ExportRes.running st := by
      simp [exporterExport, h]
    rw [he]
    refine ⟨hsends, hinv, ?_⟩
    intro st2 h2
    exact absurd h2 (by simp)
  · by_cases hb : st.batch.isEmpty
    · have he : exporterExport cfg t0 ticks = ExportRes.ok st := by
        simp [exporterExport, h, hb]
      rw [he]
      refine ⟨hsends, hinv, ?_⟩
      intro st2 h2
      cases h2
      exact List.isEmpty_iff.mp hb
    · have he : exporterExport cfg t0 ticks
          = ExportRes.ok { st with flushes := st.flushes ++ [st.batch], batch := [] } := by
        simp [exporterExport, h, hb]
      rw [he]
      refine ⟨hsends, ?_, ?_⟩
      · simpa [ExportRes.state, List.flatten_append] using hinv
      · intro st2 h2
        cases h2
        rfl
  · by_cases hb : st.batch.isEmpty
    · have he : exporterExport cfg t0 ticks = ExportRes.ok st := by
        simp [exporterExport, h, hb]
      rw [he]
      refine ⟨hsends, hinv, ?_⟩
      intro st2 h2
      cases h2
      exact List.isEmpty_iff.mp hb
    · have he : exporterExport cfg t0 ticks
          = ExportRes.ok { st with flushes := st.flushes ++ [st.batch], batch := [] } := by
        simp [exporterExport, h, hb]
      rw [he]
      refine ⟨hsends, ?_, ?_⟩
      · simpa [ExportRes.state, List.flatten_append] using hinv
      · intro st2 h2
        cases h2
        rfl
  · have he : exporterExport cfg t0 ticks = ExportRes.bugThrown st := by
      simp [exporterExport, h]
    rw [he]
    refine ⟨hsends, hinv, ?_⟩
    intro st2 h2
    exact absurd h2 (by simp)

/-- Witness for C6 on a concrete run: two records received, flushed in
one batch by the final flush; the trace equation and the zero send count
hold, and the returned state has an empty batch. -/
theorem c6_witness :
    (exporterExport ⟨2, 1000, 1500, true⟩ 0
      [Tick.mk true 5 5 (RecvOutcome.ok [("i", JsValue.int 1)]) false,
       Tick.mk true 6 6 (RecvOutcome.ok [("i", JsValue.int 2)]) false,
       Tick.mk true 7 7 RecvOutcome.errCancelled true]).state.queueSends = 0
    ∧ (exporterExport ⟨2, 1000, 1500, true⟩ 0
        [Tick.mk true 5 5 (RecvOutcome.ok [("i", JsValue.int 1)]) false,
         Tick.mk true 6 6 (RecvOutcome.ok [("i", JsValue.int 2)]) false,
         Tick.mk true 7 7 RecvOutcome.errCancelled true]).state.flushes.flatten
        ++ (exporterExport ⟨2, 1000, 1500, true⟩ 0
            [Tick.mk true 5 5 (RecvOutcome.ok [("i", JsValue.int 1)]) false,
             Tick.mk true 6 6 (RecvOutcome.ok [("i", JsValue.int 2)]) false,
             Tick.mk true 7 7 RecvOutcome.errCancelled true]).state.batch
      = (exporterExport ⟨2, 1000, 1500, true⟩ 0
          [Tick.mk true 5 5 (RecvOutcome.ok [("i", JsValue.int 1)]) false,
           Tick.mk true 6 6 (RecvOutcome.ok [("i", JsValue.int 2)]) false,
           Tick.mk true 7 7 RecvOutcome.errCancelled true]).state.received := by
  refine ⟨?_, ?_⟩
  · exact (c6_flush_drops_records ⟨2, 1000, 1500, true⟩ 0
      [Tick.mk true 5 5 (RecvOutcome.ok [("i", JsValue.int 1)]) false,
       Tick.mk true 6 6 (RecvOutcome.ok [("i", JsValue.int 2)]) false,
       Tick.mk true 7 7 RecvOutcome.errCancelled true]).1
  · exact (c6_flush_drops_records ⟨2, 1000, 1500, true⟩ 0
      [Tick.mk true 5 5 (RecvOutcome.ok [("i", JsValue.int 1)]) false,
       Tick.mk true 6 6 (RecvOutcome.ok [("i", JsValue.int 2)]) false,
       Tick.mk true 7 7 RecvOutcome.errCancelled true]).2.1

theorem mapBodyEntries_ok_body (wholeLog : Log) :
    ∀ (entries : List (String × JsValue)) (b : List (String × AnyValue)) (d : Nat)
      (f : List DroppedAttrLog),
      mapBodyEntries wholeLog entries = .ok (b, d, f) → b = bodyEntriesOf entries := by
  intro entries
  induction entries with
  | nil =>
    intro b d f h
    simp only [mapBodyEntries, Except.ok.injEq, Prod.mk.injEq] at h
    rw [← h.1]
    rfl
  | cons kv rest ih =>
    intro b d f h
    obtain ⟨k, v⟩ := kv
    rw [mapBodyEntries] at h
    by_cases hres : k ∈ reservedLogKeys
    · rw [if_pos hres] at h
      rw [ih _ _ _ h]
      simp [bodyEntriesOf, List.filterMap_cons, hres]
    · rw [if_neg hres] at h
      cases hc : toAnyValue v with
      | thrown m =>
        rw [hc] at h
        exact absurd h (by simp)
      | err e =>
        rw [hc] at h
        cases hm : mapBodyEntries wholeLog rest with
        | error m =>
          rw [hm] at h
          exact Except.noConfusion h
        | ok trip =>
          obtain ⟨b', d', f'⟩ := trip
          rw [hm] at h
          have h' : (b', d' + 1, mkDroppedLog wholeLog k v e :: f') = (b, d, f) := by
            injection h
          cases h'
          rw [ih _ _ _ hm]
          simp [bodyEntriesOf, List.filterMap_cons, hres, hc]
      | ok av =>
        rw [hc] at h
        cases hm : mapBodyEntries wholeLog rest with
        | error m =>
          rw [hm] at h
          exact Except.noConfusion h
        | ok trip =>
          obtain ⟨b', d', f'⟩ := trip
          rw [hm] at h
          have h' : ((k, av) :: b', d', f') = (b, d, f) := by
            injection h
          cases h'
          rw [ih _ _ _ hm]
          simp [bodyEntriesOf, List.filterMap_cons, hres, hc]

theorem bodyEntriesOf_keys_all_ok :
    ∀ entries : List (String × JsValue),
      (∀ kv ∈ entries, ¬ kv.1 ∈ reservedLogKeys →
        ∃ av, toAnyValue kv.2 = ConvRes.ok av) →
      (bodyEntriesOf entries).map Prod.fst
        = (entries.map Prod.fst).filter (fun k => decide (¬ k ∈ reservedLogKeys)) := by
  intro entries
  induction entries with
  | nil => intro _; rfl
  | cons kv rest ih =>
    intro hconv
    obtain ⟨k, v⟩ := kv
    have ihr := ih (fun kv hm hr => hconv kv (List.mem_cons_of_mem _ hm) hr)
    by_cases hres : k ∈ reservedLogKeys
    · simpa [bodyEntriesOf, List.filterMap_cons, hres] using ihr
    · obtain ⟨av, hav⟩ := hconv (k, v) (List.mem_cons_self _ _) hres
      simpa [bodyEntriesOf, List.filterMap_cons, hres, hav] using ihr

theorem bodyEntriesOf_keys_not_reserved (entries : List (String × JsValue)) :
    ∀ k ∈ (bodyEntriesOf entries).map Prod.fst, ¬ k ∈ reservedLogKeys := by
  intro k hk
  obtain ⟨⟨k', av⟩, hmem, hfst⟩ := List.mem_map.mp hk
  obtain ⟨⟨k0, v0⟩, hm0, hf0⟩ := List.mem_filterMap.mp hmem
  simp only at hf0
  by_cases h : k0 ∈ reservedLogKeys
  · rw [if_pos h] at hf0
    exact absurd hf0 (by simp)
  · rw [if_neg h] at hf0
    cases hc : toAnyValue v0 with
    | ok av0 =>
      rw [hc] at hf0
      simp only [Option.some.injEq, Prod.mk.injEq] at hf0
      rw [← hfst, ← hf0.1]
      exact h
    | err e => rw [hc] at hf0; exact absurd hf0 (by simp)
    | thrown m => rw [hc] at hf0; exact absurd hf0 (by simp)

theorem mem_bodyEntriesOf (entries : List (String × JsValue)) (k : String)
    (v : JsValue) (av : AnyValue) (hmem : (k, v) ∈ entries)
    (hres : ¬ k ∈ reservedLogKeys) (hok : toAnyValue v = ConvRes.ok av) :
    (k, av) ∈ bodyEntriesOf entries := by
  refine List.mem_filterMap.mpr ⟨(k, v), hmem, ?_⟩
  simp [hres, hok]

theorem mapRecord_ok_fields (now : Int) (log : Log) (rec : LogRecord)
    (fbs : List DroppedAttrLog) (h : mapRecord now log = Except.ok (rec, fbs)) :
    rec.timeUnixNano = lookupJs log "timeUnixNano"
    ∧ rec.severityNumber = lookupJs log "severityNumber"
    ∧ rec.severityText = lookupJs log "severityText"
    ∧ rec.traceId = lookupJs log "traceId"
    ∧ rec.spanId = lookupJs log "spanId"
    ∧ rec.observedTimeUnixNano = now * 1000000
    ∧ rec.body = bodyEntriesOf log := by
  rw [mapRecord] at h
  cases hm : mapBodyEntries log log with
  | error m =>
    rw [hm] at h
    exact Except.noConfusion h
  | ok trip =>
    obtain ⟨b, d, f⟩ := trip
    rw [hm] at h
    have h' : (({ timeUnixNano := lookupJs log "timeUnixNano"
                  severityNumber := lookupJs log "severityNumber"
                  severityText := lookupJs log "severityText"
                  traceId := lookupJs log "traceId"
                  spanId := lookupJs log "spanId"
                  observedTimeUnixNano := now * 1000000
                  droppedAttributesCount := d
                  body := b } : LogRecord), f) = (rec, fbs) := by
      injection h
    cases h'
    exact ⟨rfl, rfl, rfl, rfl, rfl, rfl, mapBodyEntries_ok_body log log _ _ _ hm⟩

/-- Claim C5: the mapper extracts the reserved keys into the `LogRecord`
skeleton (each field is the raw `log[key]` read) and the service keys
into the grouping side, none of the reserved keys appears in
`body.kvlistValue.values`, and when every non-reserved value converts,
the body holds exactly the non-reserved keys with their converted values
in the record's key order. -/
theorem c5_reserved_keys_extracted (now : Int) (log : Log) (rec : LogRecord)
    (fbs : List DroppedAttrLog) (hok : mapRecord now log = Except.ok (rec, fbs))
    (hconv : ∀ kv ∈ log, ¬ kv.1 ∈ reservedLogKeys →
      ∃ av, toAnyValue kv.2 = ConvRes.ok av) :
    rec.timeUnixNano = lookupJs log "timeUnixNano"
    ∧ rec.severityNumber = lookupJs log "severityNumber"
    ∧ rec.severityText = lookupJs log "severityText"
    ∧ rec.traceId = lookupJs log "traceId"
    ∧ rec.spanId = lookupJs log "spanId"
    ∧ (∀ k ∈ rec.body.map Prod.fst, ¬ k ∈ reservedLogKeys)
    ∧ rec.body.map Prod.fst
        = (log.map Prod.fst).filter (fun k => decide (¬ k ∈ reservedLogKeys))
    ∧ (∀ kv ∈ log, ¬ kv.1 ∈ reservedLogKeys →
        ∀ av, toAnyValue kv.2 = ConvRes.ok av → (kv.1, av) ∈ rec.body) := by
  obtain ⟨h1, h2, h3, h4, h5, _, hbody⟩ := mapRecord_ok_fields now log rec fbs hok
  refine ⟨h1, h2, h3, h4, h5, ?_, ?_, ?_⟩
  · rw [hbody]
    exact bodyEntriesOf_keys_not_reserved log
  · rw [hbody]
    exact bodyEntriesOf_keys_all_ok log hconv
  · intro kv hm hr av hav
    rw [hbody]
    exact mem_bodyEntriesOf log kv.1 kv.2 av hm hr hav

/-- Witness for C5 at the severity-mapping record of the spec: the body
holds exactly the `message` key. -/
theorem c5_witness :
    ([("message", AnyValue.stringValue "hi")] : List (String × AnyValue)).map Prod.fst
      = ((([("severityNumber", JsValue.int 13), ("severityText", JsValue.str "warn"),
            ("message", JsValue.str "hi")] : Log).map Prod.fst).filter
          (fun k => decide (¬ k ∈ reservedLogKeys))) := by
  have h := c5_reserved_keys_extracted 0
    [("severityNumber", JsValue.int 13), ("severityText", JsValue.str "warn"),
     ("message", JsValue.str "hi")]
    { timeUnixNano := none, severityNumber := some (JsValue.int 13),
      severityText := some (JsValue.str "warn"), traceId := none, spanId := none,
      observedTimeUnixNano := 0, droppedAttributesCount := 0,
      body := [("message", AnyValue.stringValue "hi")] } [] rfl
    (by
      intro kv hm hr
      simp only [List.mem_cons, List.not_mem_nil, or_false] at hm
      rcases hm with h1 | h1 | h1
      · exact absurd (by rw [h1]; simp [reservedLogKeys]) hr
      · exact absurd (by rw [h1]; simp [reservedLogKeys]) hr
      · exact ⟨AnyValue.stringValue "hi", by rw [h1]; rfl⟩)
  exact h.2.2.2.2.2.2.1

theorem findG_cons (k : String) (v : List LogRecord) (rest : Groups) (key : String) :
    findG ((k, v) :: rest) key = if k = key then v else findG rest key := by
  by_cases h : k = key
  · simp [findG, List.find?_cons, h]
  · simp [findG, List.find?_cons, h]

theorem firstOccAux_congr :
    ∀ (l s1 s2 : List String), (∀ x, x ∈ s1 ↔ x ∈ s2) →
      firstOccAux s1 l = firstOccAux s2 l := by
  intro l
  induction l with
  | nil => intro s1 s2 _; rfl
  | cons k rest ih =>
    intro s1 s2 h
    by_cases hk : k ∈ s1
    · rw [firstOccAux, firstOccAux, if_pos hk, if_pos ((h k).mp hk)]
      exact ih s1 s2 h
    · rw [firstOccAux, firstOccAux, if_neg hk, if_neg (fun hc => hk ((h k).mpr hc))]
      congr 1
      exact ih (k :: s1) (k :: s2) (by intro x; simp [List.mem_cons, h x])

theorem firstOccAux_mem :
    ∀ (l seen : List String) (x : String),
      x ∈ firstOccAux seen l ↔ (x ∈ l ∧ ¬ x ∈ seen) := by
  intro l
  induction l with
  | nil => intro seen x; simp [firstOccAux]
  | cons k rest ih =>
    intro seen x
    rw [firstOccAux]
    by_cases hk : k ∈ seen
    · rw [if_pos hk, ih]
      constructor
      · rintro ⟨hx, hs⟩
        exact ⟨List.mem_cons_of_mem _ hx, hs⟩
      · rintro ⟨hx, hs⟩
        rcases List.mem_cons.mp hx with rfl | hx
        · exact absurd hk hs
        · exact ⟨hx, hs⟩
    · rw [if_neg hk]
      constructor
      · intro hx
        rcases List.mem_cons.mp hx with rfl | hx
        · exact ⟨List.mem_cons_self _ _, hk⟩
        · obtain ⟨h1, h2⟩ := (ih (k :: seen) x).mp hx
          exact ⟨List.mem_cons_of_mem _ h1, fun hc => h2 (List.mem_cons_of_mem _ hc)⟩
      · rintro ⟨hx, hs⟩
        rcases List.mem_cons.mp hx with rfl | hx
        · exact List.mem_cons_self _ _
        · by_cases hxk : x = k
          · subst hxk
            exact List.mem_cons_self _ _
          · exact List.mem_cons_of_mem _
              ((ih (k :: seen) x).mpr ⟨hx, by simp [List.mem_cons, hxk, hs]⟩)

theorem firstOccAux_nodup : ∀ (l seen : List String), (firstOccAux seen l).Nodup := by
  intro l
  induction l with
  | nil => intro seen; exact List.nodup_nil
  | cons k rest ih =>
    intro seen
    rw [firstOccAux]
    by_cases hk : k ∈ seen
    · rw [if_pos hk]
      exact ih seen
    · rw [if_neg hk]
      refine List.nodup_cons.mpr ⟨?_, ih (k :: seen)⟩
      intro hc
      exact ((firstOccAux_mem rest (k :: seen) k).mp hc).2 (List.mem_cons_self _ _)

theorem firstOccAux_length (l : List String) :
    (firstOccAux [] l).length = l.toFinset.card := by
  have hnd := firstOccAux_nodup l []
  have hfin : (firstOccAux [] l).toFinset = l.toFinset := by
    ext x
    simp [List.mem_toFinset, firstOccAux_mem]
  rw [← hfin, List.toFinset_card_of_nodup hnd]

theorem insertRecord_keys (key : String) (r : LogRecord) :
    ∀ acc : Groups,
      (insertRecord acc key r).map Prod.fst
        = if key ∈ acc.map Prod.fst then acc.map Prod.fst
          else acc.map Prod.fst ++ [key] := by
  intro acc
  induction acc with
  | nil => simp [insertRecord]
  | cons p rest ih =>
    obtain ⟨k, rs⟩ := p
    by_cases h : k = key
    · subst h
      simp [insertRecord]
    · simp only [insertRecord, if_neg h, List.map_cons, ih]
      by_cases h2 : key ∈ rest.map Prod.fst
      · rw [if_pos h2, if_pos (by simp [List.mem_cons, h2])]
      · rw [if_neg h2, if_neg (by
          intro hc
          rcases List.mem_cons.mp hc with hc | hc
          · exact h hc.symm
          · exact h2 hc)]
        rfl

theorem insertRecord_findG (key : String) (r : LogRecord) :
    ∀ (acc : Groups) (k : String),
      findG (insertRecord acc key r) k
        = findG acc k ++ (if k = key then [r] else []) := by
  intro acc
  induction acc with
  | nil =>
    intro k
    by_cases h : k = key
    · subst h
      simp [insertRecord, findG_cons, findG]
    · have hsym : ¬ key = k := fun hc => h hc.symm
      simp [insertRecord, findG_cons, hsym, h, findG]
  | cons p rest ih =>
    intro k
    obtain ⟨k0, rs⟩ := p
    by_cases h0 : k0 = key
    · subst h0
      have hins : insertRecord ((k0, rs) :: rest) k0 r = (k0, rs ++ [r]) :: rest := by
        rw [insertRecord, if_pos rfl]
      rw [hins, findG_cons, findG_cons]
      by_cases hk : k0 = k
      · subst hk
        simp
      · rw [if_neg hk, if_neg hk, if_neg (fun hc => hk hc.symm), List.append_nil]
    · simp only [insertRecord, if_neg h0]
      rw [findG_cons, findG_cons]
      by_cases hk : k0 = k
      · subst hk
        rw [if_pos rfl, if_pos rfl, if_neg (fun hc => h0 hc), List.append_nil]
      · rw [if_neg hk, if_neg hk, ih k]

theorem recordsForKey_cons (now : Int) (key : String) (log : Log)
    (rest : List Log) (r : LogRecord) (f2 : List DroppedAttrLog)
    (hok : mapRecord now log = Except.ok (r, f2)) :
    recordsForKey now key (log :: rest)
      = (if resourceKey log = key then [r] else []) ++ recordsForKey now key rest := by
  by_cases h : resourceKey log = key
  · simp [recordsForKey, List.filter_cons, h, List.filterMap_cons, hok]
  · simp [recordsForKey, List.filter_cons, h]

theorem buildGroups_ok_spec (now : Int) :
    ∀ (logs : List Log) (acc : Groups) (fb : List DroppedAttrLog)
      (g : Groups) (fbOut : List DroppedAttrLog),
      buildGroups now acc fb logs = .ok (g, fbOut) →
      g.map Prod.fst = acc.map Prod.fst
          ++ firstOccAux (acc.map Prod.fst) (logs.map resourceKey)
      ∧ ∀ k, findG g k = findG acc k ++ recordsForKey now k logs := by
  intro logs
  induction logs with
  | nil =>
    intro acc fb g fbOut h
    have h' : (acc, fb) = (g, fbOut) := by injection h
    cases h'
    refine ⟨by simp [firstOccAux], ?_⟩
    intro k
    simp [recordsForKey]
  | cons log rest ih =>
    intro acc fb g fbOut h
    rw [buildGroups] at h
    cases hm : mapRecord now log with
    | error m =>
      rw [hm] at h
      exact Except.noConfusion h
    | ok pr =>
      obtain ⟨r, f2⟩ := pr
      rw [hm] at h
      obtain ⟨hkeys, hfind⟩ :=
        ih (insertRecord acc (resourceKey log) r) (fb ++ f2) g fbOut h
      constructor
      · rw [hkeys, insertRecord_keys]
        by_cases hmem : resourceKey log ∈ acc.map Prod.fst
        · rw [if_pos hmem, List.map_cons, firstOccAux, if_pos hmem]
        · rw [if_neg hmem, List.map_cons, firstOccAux, if_neg hmem]
          rw [firstOccAux_congr (rest.map resourceKey)
            (acc.map Prod.fst ++ [resourceKey log])
            (resourceKey log :: acc.map Prod.fst)
            (by intro x; simp [List.mem_append, List.mem_cons, or_comm])]
          simp [List.append_assoc]
      · intro k
        rw [hfind k, insertRecord_findG, recordsForKey_cons now k log rest r f2 hm]
        by_cases hkk : k = resourceKey log
        · rw [if_pos hkk, if_pos hkk.symm, List.append_assoc]
        · rw [if_neg hkk, if_neg (fun hc => hkk hc.symm), List.append_nil]
          rfl

theorem insertRecord_nonempty (key : String) (r : LogRecord) :
    ∀ acc : Groups, (∀ p ∈ acc, p.2 ≠ []) →
      ∀ p ∈ insertRecord acc key r, p.2 ≠ [] := by
  intro acc
  induction acc with
  | nil =>
    intro _ p hp
    simp only [insertRecord, List.mem_singleton] at hp
    rw [hp]
    simp
  | cons q rest ih =>
    intro hacc p hp
    obtain ⟨k0, rs⟩ := q
    by_cases h : k0 = key
    · subst h
      simp only [insertRecord, if_pos rfl] at hp
      rcases List.mem_cons.mp hp with rfl | hp
      · simp
      · exact hacc p (List.mem_cons_of_mem _ hp)
    · simp only [insertRecord, if_neg h] at hp
      rcases List.mem_cons.mp hp with rfl | hp
      · exact hacc _ (List.mem_cons_self _ _)
      · exact ih (fun q hq => hacc q (List.mem_cons_of_mem _ hq)) p hp

theorem buildGroups_nonempty (now : Int) :
    ∀ (logs : List Log) (acc : Groups) (fb : List DroppedAttrLog)
      (g : Groups) (fbOut : List DroppedAttrLog),
      (∀ p ∈ acc, p.2 ≠ []) → buildGroups now acc fb logs = .ok (g, fbOut) →
      ∀ p ∈ g, p.2 ≠ [] := by
  intro logs
  induction logs with
  | nil =>
    intro acc fb g fbOut hacc h
    have h' : (acc, fb) = (g, fbOut) := by injection h
    cases h'
    exact hacc
  | cons log rest ih =>
    intro acc fb g fbOut hacc h
    rw [buildGroups] at h
    cases hm : mapRecord now log with
    | error m =>
      rw [hm] at h
      exact Except.noConfusion h
    | ok pr =>
      obtain ⟨r, f2⟩ := pr
      rw [hm] at h
      exact ih _ _ _ _ (insertRecord_nonempty _ r acc hacc) h

theorem buildGroups_each_ok (now : Int) :
    ∀ (logs : List Log) (acc : Groups) (fb : List DroppedAttrLog)
      (g : Groups) (fbOut : List DroppedAttrLog),
      buildGroups now acc fb logs = .ok (g, fbOut) →
      ∀ l ∈ logs, ∃ r f2, mapRecord now l = Except.ok (r, f2) := by
  intro logs
  induction logs with
  | nil =>
    intro acc fb g fbOut _ l hl
    exact absurd hl (List.not_mem_nil l)
  | cons log rest ih =>
    intro acc fb g fbOut h l hl
    rw [buildGroups] at h
    cases hm : mapRecord now log with
    | error m =>
      rw [hm] at h
      exact Except.noConfusion h
    | ok pr =>
      obtain ⟨r, f2⟩ := pr
      rw [hm] at h
      rcases List.mem_cons.mp hl with rfl | hl
      · exact ⟨r, f2, hm⟩
      · exact ih _ _ _ _ h l hl

theorem groups_eta :
    ∀ g : Groups, (g.map Prod.fst).Nodup →
      g = (g.map Prod.fst).map (fun k => (k, findG g k)) := by
  intro g
  induction g with
  | nil => intro _; rfl
  | cons p rest ih =>
    intro hnd
    obtain ⟨k, v⟩ := p
    simp only [List.map_cons] at hnd ⊢
    have hnd' := List.nodup_cons.mp hnd
    have h1 : findG ((k, v) :: rest) k = v := by
      rw [findG_cons, if_pos rfl]
    have h2 : (rest.map Prod.fst).map (fun k' => (k', findG ((k, v) :: rest) k'))
        = (rest.map Prod.fst).map (fun k' => (k', findG rest k')) := by
      apply List.map_congr_left
      intro k' hk'
      have hne : ¬ k = k' := fun hc => hnd'.1 (hc ▸ hk')
      rw [findG_cons, if_neg hne]
    rw [h1, h2, ← ih hnd'.2]

theorem groupsToResourceLogs_eq_map :
    ∀ g : Groups, (∀ p ∈ g, p.2 ≠ []) →
      groupsToResourceLogs g = g.map (fun p => mkResourceLog p.1 p.2) := by
  intro g
  induction g with
  | nil => intro _; rfl
  | cons p rest ih =>
    intro h
    obtain ⟨k, rs⟩ := p
    have hne : rs ≠ [] := h (k, rs) (List.mem_cons_self _ _)
    rw [groupsToResourceLogs, if_neg (by simpa [List.isEmpty_iff] using hne)]
    rw [ih (fun q hq => h q (List.mem_cons_of_mem _ hq))]
    rfl

/-- Claim C4: on a successful run, the request holds exactly one
`resourceLogs` entry per distinct grouping key of the batch, in
first-occurrence order, each carrying (inside its single `scopeLogs`
entry) the group's records in the records' relative input order, and no
entry with an empty `logRecords` list is emitted. -/
theorem c4_one_group_per_key (now : Int) (logs : List Log)
    (req : ExportLogsServiceRequest) (fbs : List DroppedAttrLog)
    (hok : logsToExportRequest now logs = Except.ok (req, fbs)) :
    req.resourceLogs
      = (firstOccAux [] (logs.map resourceKey)).map
          (fun k => mkResourceLog k (recordsForKey now k logs))
    ∧ req.resourceLogs.length = (logs.map resourceKey).toFinset.card
    ∧ (∀ rl ∈ req.resourceLogs, ∀ sl ∈ rl.scopeLogs, sl.logRecords ≠ []) := by
  rw [logsToExportRequest] at hok
  cases hbg : buildGroups now [] [] logs with
  | error m =>
    rw [hbg] at hok
    exact Except.noConfusion hok
  | ok pr =>
    obtain ⟨g, fbs0⟩ := pr
    rw [hbg] at hok
    have h' : (({ resourceLogs := groupsToResourceLogs g } : ExportLogsServiceRequest),
        fbs0) = (req, fbs) := by injection hok
    cases h'
    obtain ⟨hkeys, hfind⟩ := buildGroups_ok_spec now logs [] [] g fbs hbg
    simp only [List.map_nil, List.nil_append] at hkeys
    have hfind' : ∀ k, findG g k = recordsForKey now k logs := by
      intro k
      have h := hfind k
      simpa [findG] using h
    have hne : ∀ p ∈ g, p.2 ≠ [] :=
      buildGroups_nonempty now logs [] [] g fbs (by simp) hbg
    have hnd : (g.map Prod.fst).Nodup := by
      rw [hkeys]
      exact firstOccAux_nodup _ _
    have hmain : groupsToResourceLogs g
        = (firstOccAux [] (logs.map resourceKey)).map
            (fun k => mkResourceLog k (recordsForKey now k logs)) := by
      rw [groupsToResourceLogs_eq_map g hne]
      conv_lhs => rw [groups_eta g hnd]
      rw [List.map_map, hkeys]
      apply List.map_congr_left
      intro k hk
      simp only [Function.comp]
      rw [hfind' k]
    refine ⟨hmain, ?_, ?_⟩
    · show (groupsToResourceLogs g).length = _
      rw [hmain, List.length_map, firstOccAux_length]
    · intro rl hrl sl hsl
      have hrl' : rl ∈ (firstOccAux [] (logs.map resourceKey)).map
          (fun k => mkResourceLog k (recordsForKey now k logs)) := by
        rw [← hmain]
        exact hrl
      obtain ⟨k, hk, rfl⟩ := List.mem_map.mp hrl'
      have hsl' : sl.logRecords = recordsForKey now k logs := by
        rw [show (mkResourceLog k (recordsForKey now k logs)).scopeLogs
            = [{ schemaUrl := SchemaUrl
                 scope := { name := PackageName, version := BuildVersion }
                 logRecords := recordsForKey now k logs }] from rfl] at hsl
        rw [List.mem_singleton.mp hsl]
      rw [hsl']
      have hkmem : k ∈ logs.map resourceKey :=
        ((firstOccAux_mem (logs.map resourceKey) [] k).mp hk).1
      obtain ⟨log, hlog, hrk⟩ := List.mem_map.mp hkmem
      obtain ⟨r, f2, hm⟩ := buildGroups_each_ok now logs [] [] g fbs hbg log hlog
      intro hcon
      have hmem : r ∈ recordsForKey now k logs := by
        refine List.mem_filterMap.mpr ⟨log, ?_, ?_⟩
        · exact List.mem_filter.mpr ⟨hlog, by simp [hrk]⟩
        · simp [hm]
      rw [hcon] at hmem
      exact absurd hmem (List.not_mem_nil r)

/-- Witness for C4 at the mapper-grouping scenario of the spec: three
records over two keys yield two groups of sizes two and one, in input
order. -/
theorem c4_witness :
    (logsToExportRequest 0
      [[("service.name", JsValue.str "a"), ("service.version", JsValue.str "1"),
        ("k", JsValue.int 1)],
       [("service.name", JsValue.str "a"), ("service.version", JsValue.str "1"),
        ("k", JsValue.int 2)],
       [("service.name", JsValue.str "b"), ("service.version", JsValue.str "1"),
        ("k", JsValue.int 3)]]).map
      (fun p => p.1.resourceLogs.length) = Except.ok 2 := by
  cases hok : logsToExportRequest 0
      [[("service.name", JsValue.str "a"), ("service.version", JsValue.str "1"),
        ("k", JsValue.int 1)],
       [("service.name", JsValue.str "a"), ("service.version", JsValue.str "1"),
        ("k", JsValue.int 2)],
       [("service.name", JsValue.str "b"), ("service.version", JsValue.str "1"),
        ("k", JsValue.int 3)]] with
  | error m => exact absurd hok (by intro hc; exact Except.noConfusion (hc.symm.trans rfl))
  | ok pr =>
    obtain ⟨req, fbs⟩ := pr
    have h := (c4_one_group_per_key 0 _ req fbs hok).2.1
    rw [Except.map, h]
    rfl

end Archival
